import Mathlib

/-!
Verification of the drawpoint curve library.

The curve-arithmetic core (the point and curve modules) is not among the
available sources; only the canvas/draw helper module (`draw.js`) and the
curve test suite are.  Definitions for the core are therefore modelled from
the specification (and are marked as such in their doc comments), while the
helpers of `draw.js` are translated directly from that file.

Coordinates are real-valued in the specification's data model; they are
embedded here as rationals (exact arithmetic) for the algebraic core, and as
real numbers where square roots are inherent (the deflection helper and
polynomial root sets of inverse interpolation).
-/

namespace Drawpoint

/-- A plain point: an ordered pair of real-valued coordinates (embedded as
exact rationals). -/
@[ext]
structure Pt where
  x : ℚ
  y : ℚ
deriving DecidableEq

/-- A curve endpoint: a point optionally carrying one or two control points.
Presence of `cp1` / `cp2` is the sole signal of the degree of the curve
arriving at this endpoint. -/
@[ext]
structure DrawPt where
  x : ℚ
  y : ℚ
  cp1 : Option Pt := none
  cp2 : Option Pt := none
deriving DecidableEq

/-- Modelled from the spec: `extractPoint` (the point module is not among the
sources) returns the plain coordinates of an endpoint, dropping its
control-point annotations. -/
def extractPoint (p : DrawPt) : Pt := ⟨p.x, p.y⟩

/-- View a plain point as a control-point-free endpoint. -/
def Pt.toDrawPt (p : Pt) : DrawPt := { x := p.x, y := p.y }

/-- Linear interpolation between two points at parameter `t`. -/
def lerp (t : ℚ) (a b : Pt) : Pt :=
  ⟨(1 - t) * a.x + t * b.x, (1 - t) * a.y + t * b.y⟩

/-- Degree-1 Bernstein evaluation. -/
def pointOnLine (t : ℚ) (a b : Pt) : Pt := lerp t a b

/-- Degree-2 Bernstein evaluation with control point `c`. -/
def pointOnQuadratic (t : ℚ) (a c b : Pt) : Pt :=
  ⟨(1 - t) ^ 2 * a.x + 2 * (1 - t) * t * c.x + t ^ 2 * b.x,
   (1 - t) ^ 2 * a.y + 2 * (1 - t) * t * c.y + t ^ 2 * b.y⟩

/-- Degree-3 Bernstein evaluation with control points `c1`, `c2`. -/
def pointOnCubic (t : ℚ) (a c1 c2 b : Pt) : Pt :=
  ⟨(1 - t) ^ 3 * a.x + 3 * (1 - t) ^ 2 * t * c1.x + 3 * (1 - t) * t ^ 2 * c2.x
      + t ^ 3 * b.x,
   (1 - t) ^ 3 * a.y + 3 * (1 - t) ^ 2 * t * c1.y + 3 * (1 - t) * t ^ 2 * c2.y
      + t ^ 3 * b.y⟩

/-- Modelled from the spec: `getPointOnCurve` (the curve module is not among
the sources) evaluates the curve `(p1, p2)` at parameter `t`, dispatching on
which control points `p2` carries; the output is a plain point. -/
def getPointOnCurve (t : ℚ) (p1 : Pt) (p2 : DrawPt) : Pt :=
  match p2.cp1, p2.cp2 with
  | some c1, some c2 => pointOnCubic t p1 c1 c2 (extractPoint p2)
  | some c1, none => pointOnQuadratic t p1 c1 (extractPoint p2)
  | none, _ => pointOnLine t p1 (extractPoint p2)

/-- C3: for every curve of degree 1, 2 or 3, the evaluator is exact at the
boundary parameters: `getPointOnCurve 0` returns the start point and
`getPointOnCurve 1` returns the plain coordinates of the end point; by its
type the output carries no control points. -/
theorem getPointOnCurve_boundary (p1 : Pt) (p2 : DrawPt) :
    getPointOnCurve 0 p1 p2 = p1 ∧ getPointOnCurve 1 p1 p2 = extractPoint p2 := by
  rcases p1 with ⟨ax, ay⟩
  rcases p2 with ⟨x, y, c1, c2⟩
  rcases c1 with _ | c1 <;> rcases c2 with _ | c2 <;>
    refine ⟨?_, ?_⟩ <;>
      simp [getPointOnCurve, pointOnLine, pointOnQuadratic, pointOnCubic, lerp,
        extractPoint, Pt.mk.injEq]

/-- Modelled from the spec: `elevateDegree` (the curve module is not among the
sources) raises the representational degree by one without changing the traced
path.  Linear → quadratic inserts the chord midpoint as the control point (the
standard path-preserving degree-elevation control point, which the test
suite's path-preservation assertions force); quadratic → cubic uses
`C1' = P0 + 2/3·(C1−P0)` and `C2' = P1 + 2/3·(C1−P1)` as both the spec and
the claim state; a cubic endpoint is returned unchanged. -/
def elevateDegree (p1 : Pt) (p2 : DrawPt) : DrawPt :=
  match p2.cp1, p2.cp2 with
  | none, none =>
      { x := p2.x, y := p2.y, cp1 := some (lerp (1/2) p1 (extractPoint p2)) }
  | some c, none =>
      { x := p2.x, y := p2.y,
        cp1 := some (lerp (2/3) p1 c),
        cp2 := some (lerp (2/3) (extractPoint p2) c) }
  | some _, some _ => p2
  | none, some _ => p2

/-- The linear → quadratic elevation exactly as the claim words it: control
point `P0 + 2/3·(P1−P0)`; kept separate so it can be compared with the
path-preserving elevation above. -/
def elevateLinearClaimFormula (p1 : Pt) (p2 : DrawPt) : DrawPt :=
  { x := p2.x, y := p2.y, cp1 := some (lerp (2/3) p1 (extractPoint p2)) }

/-- C4 counterexample: with the claimed control point `P0 + 2/3·(P1−P0)` for
linear → quadratic elevation, the elevated curve does not reproduce the
original line: at P0 = (0,0), P1 = (6,0) and t = 1/2 the elevated quadratic
passes through x = 7/2 while the line passes through x = 3, a deviation far
above the claimed 1e-9 tolerance. -/
theorem elevateDegree_claim_counterexample :
    (1 : ℚ)/1000000000 <
      |(getPointOnCurve (1/2) ⟨0, 0⟩
          (elevateLinearClaimFormula ⟨0, 0⟩ (Pt.toDrawPt ⟨6, 0⟩))).x -
        (getPointOnCurve (1/2) ⟨0, 0⟩ (Pt.toDrawPt ⟨6, 0⟩)).x| := by
  norm_num [getPointOnCurve, elevateLinearClaimFormula, Pt.toDrawPt,
    pointOnQuadratic, pointOnLine, lerp, extractPoint]
  rw [abs_of_pos] <;> norm_num

/-- C4 (amended): degree elevation is path-preserving for linear and quadratic
curves — with the linear → quadratic control point being the chord midpoint
`P0 + 1/2·(P1−P0)` rather than the claimed `P0 + 2/3·(P1−P0)`; the
quadratic → cubic control points are as the claim states.  The evaluations
agree exactly (hence within the stated 1e-9 tolerance) for every parameter
`t`, and the agreement persists under repeated elevation (a linear curve
elevated twice to cubic still matches). -/
theorem elevateDegree_preserves_path (t : ℚ) (p1 : Pt) (p2 : DrawPt)
    (h : p2.cp2 = none) :
    getPointOnCurve t p1 (elevateDegree p1 p2) = getPointOnCurve t p1 p2 ∧
    getPointOnCurve t p1 (elevateDegree p1 (elevateDegree p1 p2)) =
      getPointOnCurve t p1 p2 := by
  rcases p1 with ⟨ax, ay⟩
  rcases p2 with ⟨x, y, c1, c2⟩
  obtain rfl : c2 = none := h
  rcases c1 with _ | c1 <;>
    refine ⟨?_, ?_⟩ <;>
      (simp only [elevateDegree, getPointOnCurve, pointOnLine, pointOnQuadratic,
        pointOnCubic, lerp, extractPoint]
       ext <;> ring)

/-- C4 witness: the amended elevation theorem instantiated at the line
(0,0) → (6,0) and t = 1/2. -/
theorem elevateDegree_preserves_path_witness :
    (Pt.toDrawPt ⟨6, 0⟩).cp2 = none ∧
      getPointOnCurve (1/2) ⟨0, 0⟩ (elevateDegree ⟨0, 0⟩ (Pt.toDrawPt ⟨6, 0⟩)) =
        getPointOnCurve (1/2) ⟨0, 0⟩ (Pt.toDrawPt ⟨6, 0⟩) :=
  ⟨rfl, (elevateDegree_preserves_path (1/2) ⟨0, 0⟩ (Pt.toDrawPt ⟨6, 0⟩) rfl).1⟩

/-- One side of a split: a curve given by its start point and its
end-with-controls. -/
structure SplitSide where
  p1 : Pt
  p2 : DrawPt
deriving DecidableEq

/-- The result of splitting a curve: the two sub-curves. -/
structure SplitResult where
  left : SplitSide
  right : SplitSide
deriving DecidableEq

/-- The representational degree signalled by which control points are
present: both → 3, only `cp1` → 2, otherwise → 1. -/
def degreeOf (p : DrawPt) : ℕ :=
  match p.cp1, p.cp2 with
  | some _, some _ => 3
  | some _, none => 2
  | none, _ => 1

/-- Modelled from the spec: `splitCurve` (the curve module is not among the
sources) subdivides the curve `(p1, p2)` at parameter `t` (any rational, not
restricted to [0,1]) by repeated linear interpolation between control points
(De Casteljau), degree-preserving, with no failure case. -/
def splitCurve (t : ℚ) (p1 : Pt) (p2 : DrawPt) : SplitResult :=
  match p2.cp1, p2.cp2 with
  | some c1, some c2 =>
      let e := extractPoint p2
      let a0 := lerp t p1 c1
      let a1 := lerp t c1 c2
      let a2 := lerp t c2 e
      let b0 := lerp t a0 a1
      let b1 := lerp t a1 a2
      let s := lerp t b0 b1
      ⟨⟨p1, { x := s.x, y := s.y, cp1 := some a0, cp2 := some b0 }⟩,
       ⟨s, { x := e.x, y := e.y, cp1 := some b1, cp2 := some a2 }⟩⟩
  | some c, none =>
      let e := extractPoint p2
      let q0 := lerp t p1 c
      let q1 := lerp t c e
      let s := lerp t q0 q1
      ⟨⟨p1, { x := s.x, y := s.y, cp1 := some q0 }⟩,
       ⟨s, { x := e.x, y := e.y, cp1 := some q1 }⟩⟩
  | none, _ =>
      let e := extractPoint p2
      let s := lerp t p1 e
      ⟨⟨p1, Pt.toDrawPt s⟩, ⟨s, Pt.toDrawPt e⟩⟩

/-- De Casteljau correctness, left half: the left sub-curve of a split at `s`,
evaluated at `u`, is the original curve evaluated at `s·u`. -/
theorem splitCurve_left_eval (s u : ℚ) (p1 : Pt) (p2 : DrawPt) :
    getPointOnCurve u (splitCurve s p1 p2).left.p1 (splitCurve s p1 p2).left.p2 =
      getPointOnCurve (s * u) p1 p2 := by
  rcases p1 with ⟨ax, ay⟩
  rcases p2 with ⟨x, y, c1, c2⟩
  rcases c1 with _ | c1 <;> rcases c2 with _ | c2 <;>
    (simp only [splitCurve, getPointOnCurve, pointOnLine, pointOnQuadratic,
       pointOnCubic, lerp, extractPoint, Pt.toDrawPt]
     ext <;> ring)

/-- De Casteljau correctness, right half: the right sub-curve of a split at
`s`, evaluated at `u`, is the original curve evaluated at `s + (1−s)·u`. -/
theorem splitCurve_right_eval (s u : ℚ) (p1 : Pt) (p2 : DrawPt) :
    getPointOnCurve u (splitCurve s p1 p2).right.p1 (splitCurve s p1 p2).right.p2 =
      getPointOnCurve (s + (1 - s) * u) p1 p2 := by
  rcases p1 with ⟨ax, ay⟩
  rcases p2 with ⟨x, y, c1, c2⟩
  rcases c1 with _ | c1 <;> rcases c2 with _ | c2 <;>
    (simp only [splitCurve, getPointOnCurve, pointOnLine, pointOnQuadratic,
       pointOnCubic, lerp, extractPoint, Pt.toDrawPt]
     ext <;> ring)

/-- C5: for every curve of degree 1, 2 or 3 and split parameter `s`, the two
sub-curves reproduce the original under reparametrization: for `t < s` the
left sub-curve at `t/s` gives the original point at `t`, otherwise the right
sub-curve at `(t−s)/(1−s)` does (exactly, hence within any tolerance; the
division forces `s ≠ 0`, resp. `s ≠ 1`, for the quotient to be meaningful). -/
theorem splitCurve_reparametrization (p1 : Pt) (p2 : DrawPt) (s t : ℚ) :
    (t < s → s ≠ 0 →
      getPointOnCurve (t / s) (splitCurve s p1 p2).left.p1
          (splitCurve s p1 p2).left.p2 = getPointOnCurve t p1 p2) ∧
    (¬ t < s → s ≠ 1 →
      getPointOnCurve ((t - s) / (1 - s)) (splitCurve s p1 p2).right.p1
          (splitCurve s p1 p2).right.p2 = getPointOnCurve t p1 p2) := by
  constructor
  · intro _ hs
    rw [splitCurve_left_eval]
    congr 1
    field_simp
  · intro _ hs
    have h1 : (1 : ℚ) - s ≠ 0 := sub_ne_zero.mpr (Ne.symm hs)
    rw [splitCurve_right_eval]
    congr 1
    field_simp

/-- C5 witness: the reparametrization theorem at the quadratic curve
(0,0) → (2,0) with control point (1,1), split at s = 1/2, sampled at
t = 1/4 (left side) — the hypotheses 1/4 < 1/2 and 1/2 ≠ 0 hold. -/
theorem splitCurve_reparametrization_witness :
    ((1 : ℚ)/4 < 1/2 ∧ (1 : ℚ)/2 ≠ 0) ∧
      getPointOnCurve ((1/4) / (1/2))
          (splitCurve (1/2) ⟨0, 0⟩ ⟨2, 0, some ⟨1, 1⟩, none⟩).left.p1
          (splitCurve (1/2) ⟨0, 0⟩ ⟨2, 0, some ⟨1, 1⟩, none⟩).left.p2 =
        getPointOnCurve (1/4) ⟨0, 0⟩ ⟨2, 0, some ⟨1, 1⟩, none⟩ :=
  ⟨⟨by norm_num, by norm_num⟩,
    (splitCurve_reparametrization ⟨0, 0⟩ ⟨2, 0, some ⟨1, 1⟩, none⟩ (1/2) (1/4)).1
      (by norm_num) (by norm_num)⟩

/-- C6: for every curve and every rational split parameter `t` (also outside
[0,1]; `splitCurve` is a total function, so no error is possible), the split
is a pair of curves of the same degree as the input with: the left start equal
to the original start exactly, the right end carrying the plain coordinates of
the original end, and the plain coordinates of the left end equal to the right
start (the sub-curves share exactly the split point). -/
theorem splitCurve_endpoints (t : ℚ) (p1 : Pt) (p2 : DrawPt) :
    (splitCurve t p1 p2).left.p1 = p1 ∧
    extractPoint (splitCurve t p1 p2).right.p2 = extractPoint p2 ∧
    extractPoint (splitCurve t p1 p2).left.p2 = (splitCurve t p1 p2).right.p1 ∧
    degreeOf (splitCurve t p1 p2).left.p2 = degreeOf p2 ∧
    degreeOf (splitCurve t p1 p2).right.p2 = degreeOf p2 := by
  rcases p2 with ⟨x, y, c1, c2⟩
  rcases c1 with _ | c1 <;> rcases c2 with _ | c2 <;>
    simp [splitCurve, extractPoint, degreeOf, Pt.toDrawPt, lerp]

/-- C7: splitting at t = 0 makes the left sub-curve degenerate at the start
point (its end coordinates and any control points all coincide at P0) and the
right sub-curve identical to the original; splitting at t = 1 makes the left
sub-curve identical to the original and the right sub-curve degenerate at the
end point, with any control points of its end collapsed to the plain end
coordinates.  The hypothesis excludes the ill-formed endpoint shape carrying
`cp2` without `cp1`, which the data model does not admit. -/
theorem splitCurve_boundary_split (p1 : Pt) (p2 : DrawPt)
    (h : p2.cp1 = none → p2.cp2 = none) :
    ((splitCurve 0 p1 p2).left.p1 = p1 ∧
      extractPoint (splitCurve 0 p1 p2).left.p2 = p1 ∧
      (splitCurve 0 p1 p2).left.p2.cp1 = p2.cp1.map (fun _ => p1) ∧
      (splitCurve 0 p1 p2).left.p2.cp2 = p2.cp2.map (fun _ => p1) ∧
      (splitCurve 0 p1 p2).right.p1 = p1 ∧
      (splitCurve 0 p1 p2).right.p2 = p2) ∧
    ((splitCurve 1 p1 p2).left.p1 = p1 ∧
      (splitCurve 1 p1 p2).left.p2 = p2 ∧
      (splitCurve 1 p1 p2).right.p1 = extractPoint p2 ∧
      extractPoint (splitCurve 1 p1 p2).right.p2 = extractPoint p2 ∧
      (splitCurve 1 p1 p2).right.p2.cp1 = p2.cp1.map (fun _ => extractPoint p2) ∧
      (splitCurve 1 p1 p2).right.p2.cp2 = p2.cp2.map (fun _ => extractPoint p2)) := by
  rcases p2 with ⟨x, y, c1, c2⟩
  rcases c1 with _ | c1 <;> rcases c2 with _ | c2
  · simp [splitCurve, extractPoint, degreeOf, Pt.toDrawPt, lerp]
  · exact absurd (h rfl) (by simp)
  · simp [splitCurve, extractPoint, degreeOf, Pt.toDrawPt, lerp]
  · simp [splitCurve, extractPoint, degreeOf, Pt.toDrawPt, lerp]

/-- C7 witness: the boundary-split theorem at the cubic curve
(0,0) → (3,4) with control points (1,1) and (2,2); the right sub-curve of the
t = 0 split is the original endpoint record, and the t = 1 split collapses the
right control points onto (3,4). -/
theorem splitCurve_boundary_split_witness :
    ((⟨3, 4, some ⟨1, 1⟩, some ⟨2, 2⟩⟩ : DrawPt).cp1 = none →
      (⟨3, 4, some ⟨1, 1⟩, some ⟨2, 2⟩⟩ : DrawPt).cp2 = none) ∧
      (splitCurve 0 ⟨0, 0⟩ ⟨3, 4, some ⟨1, 1⟩, some ⟨2, 2⟩⟩).right.p2 =
        ⟨3, 4, some ⟨1, 1⟩, some ⟨2, 2⟩⟩ :=
  ⟨fun hc => absurd hc (by simp),
    (splitCurve_boundary_split ⟨0, 0⟩ ⟨3, 4, some ⟨1, 1⟩, some ⟨2, 2⟩⟩
      (fun hc => absurd hc (by simp))).1.2.2.2.2.2⟩

/-- A point with real coordinates, for routines whose outputs are irrational
in general (unit perpendicular vectors). -/
@[ext]
structure PtR where
  x : ℝ
  y : ℝ

/-- Modelled from the spec: the vector difference utility `diff` (the point
module is not among the sources). -/
def diffR (a b : PtR) : PtR := ⟨a.x - b.x, a.y - b.y⟩

/-- Modelled from the spec: the Euclidean magnitude utility `norm` (the point
module is not among the sources). -/
noncomputable def normR (v : PtR) : ℝ := Real.sqrt (v.x ^ 2 + v.y ^ 2)

/-- A vector rotated by a quarter turn, perpendicular to its argument. -/
def perpR (v : PtR) : PtR := ⟨-v.y, v.x⟩

/-- The unit vector in the direction of `v`. -/
noncomputable def unitR (v : PtR) : PtR := ⟨v.x / normR v, v.y / normR v⟩

/-- Real-coordinate linear interpolation at parameter `t`. -/
def lerpR (t : ℝ) (a b : PtR) : PtR :=
  ⟨(1 - t) * a.x + t * b.x, (1 - t) * a.y + t * b.y⟩

/-- Modelled from the spec: `simpleQuadratic` (the curve module is not among
the sources) returns the control point at signed perpendicular deflection `d`
from the point at parameter `t` on the straight line p1 → p2. -/
noncomputable def simpleQuadratic (p1 p2 : PtR) (t d : ℝ) : PtR :=
  let base := lerpR t p1 p2
  let u := unitR (perpR (diffR p2 p1))
  ⟨base.x + d * u.x, base.y + d * u.y⟩

/-- The distance from the deflected control point to an arbitrary point of the
base line, in closed form: the perpendicular offset `d` and the along-chord
offset `t − s` combine orthogonally. -/
theorem normR_diff_simpleQuadratic (p1 p2 : PtR) (t d s : ℝ)
    (h : ¬(p2.x - p1.x = 0 ∧ p2.y - p1.y = 0)) :
    normR (diffR (simpleQuadratic p1 p2 t d) (lerpR s p1 p2)) =
      Real.sqrt (d ^ 2 + (t - s) ^ 2 * ((p2.x - p1.x) ^ 2 + (p2.y - p1.y) ^ 2)) := by
  have hstep : normR (diffR (simpleQuadratic p1 p2 t d) (lerpR s p1 p2)) =
      Real.sqrt
        (((1 - t) * p1.x + t * p2.x +
              d * (-(p2.y - p1.y) /
                Real.sqrt ((-(p2.y - p1.y)) ^ 2 + (p2.x - p1.x) ^ 2)) -
            ((1 - s) * p1.x + s * p2.x)) ^ 2 +
          ((1 - t) * p1.y + t * p2.y +
              d * ((p2.x - p1.x) /
                Real.sqrt ((-(p2.y - p1.y)) ^ 2 + (p2.x - p1.x) ^ 2)) -
            ((1 - s) * p1.y + s * p2.y)) ^ 2) := rfl
  rw [hstep]
  have hsum : 0 < (-(p2.y - p1.y)) ^ 2 + (p2.x - p1.x) ^ 2 := by
    rcases not_and_or.mp h with h' | h'
    · have h2 : 0 < (p2.x - p1.x) ^ 2 :=
        (sq_nonneg _).lt_of_ne (Ne.symm (pow_ne_zero 2 h'))
      nlinarith [sq_nonneg (p2.y - p1.y)]
    · have h2 : 0 < (p2.y - p1.y) ^ 2 :=
        (sq_nonneg _).lt_of_ne (Ne.symm (pow_ne_zero 2 h'))
      nlinarith [sq_nonneg (p2.x - p1.x)]
  set N := Real.sqrt ((-(p2.y - p1.y)) ^ 2 + (p2.x - p1.x) ^ 2) with hN
  have hNpos : 0 < N := Real.sqrt_pos.mpr hsum
  have hN2 : N ^ 2 = (-(p2.y - p1.y)) ^ 2 + (p2.x - p1.x) ^ 2 :=
    Real.sq_sqrt hsum.le
  have hu : (-(p2.y - p1.y) / N) ^ 2 + ((p2.x - p1.x) / N) ^ 2 = 1 := by
    field_simp
    linarith [hN2]
  have hperp : (-(p2.y - p1.y) / N) * (p2.x - p1.x) +
      ((p2.x - p1.x) / N) * (p2.y - p1.y) = 0 := by
    ring
  congr 1
  linear_combination d ^ 2 * hu + (2 * d * (t - s)) * hperp

/-- C9: `simpleQuadratic` with zero deflection returns exactly the point at
parameter `t` on the line p1 → p2; for distinct endpoints and any deflection
`d`, the returned control point lies at distance `|d|` from the line point at
parameter `t`, and no point of the line is closer — so the perpendicular
distance to the chord is `|d|`, attained at parameter `t` (the sign of `d`
picks the side of the unit perpendicular). -/
theorem simpleQuadratic_deflection (p1 p2 : PtR) (t d : ℝ) :
    simpleQuadratic p1 p2 t 0 = lerpR t p1 p2 ∧
    (p1 ≠ p2 →
      normR (diffR (simpleQuadratic p1 p2 t d) (lerpR t p1 p2)) = |d| ∧
      ∀ s : ℝ, |d| ≤ normR (diffR (simpleQuadratic p1 p2 t d) (lerpR s p1 p2))) := by
  constructor
  · ext <;> simp [simpleQuadratic, lerpR, unitR, perpR, diffR, normR]
  · intro hne
    have h : ¬(p2.x - p1.x = 0 ∧ p2.y - p1.y = 0) := by
      rintro ⟨hx, hy⟩
      exact hne (by ext <;> linarith)
    constructor
    · rw [normR_diff_simpleQuadratic p1 p2 t d t h, sub_self]
      rw [show d ^ 2 + 0 ^ 2 * ((p2.x - p1.x) ^ 2 + (p2.y - p1.y) ^ 2) = d ^ 2 by ring]
      exact Real.sqrt_sq_eq_abs d
    · intro s
      rw [normR_diff_simpleQuadratic p1 p2 t d s h]
      calc |d| = Real.sqrt (d ^ 2) := (Real.sqrt_sq_eq_abs d).symm
        _ ≤ _ := Real.sqrt_le_sqrt
          (by nlinarith [sq_nonneg (t - s), sq_nonneg (p2.x - p1.x),
            sq_nonneg (p2.y - p1.y), sq_nonneg ((t - s) * (p2.x - p1.x)),
            sq_nonneg ((t - s) * (p2.y - p1.y))])

/-- C9 witness: the deflection theorem at the endpoints (0,0) and (3,4) with
t = 0 and d = 5 — the endpoints are distinct, and the control point is at
distance |5| from the line point at t = 0. -/
theorem simpleQuadratic_deflection_witness :
    ((⟨0, 0⟩ : PtR) ≠ ⟨3, 4⟩) ∧
      normR (diffR (simpleQuadratic ⟨0, 0⟩ ⟨3, 4⟩ 0 5) (lerpR 0 ⟨0, 0⟩ ⟨3, 4⟩)) =
        |(5 : ℝ)| := by
  have hne : (⟨0, 0⟩ : PtR) ≠ ⟨3, 4⟩ := by
    intro hc
    have hx := congrArg PtR.x hc
    norm_num at hx
  exact ⟨hne, ((simpleQuadratic_deflection ⟨0, 0⟩ ⟨3, 4⟩ 0 5).2 hne).1⟩

/-- Options record for trace points, as constructed by `tracePoint`. -/
structure TraceOpts where
  radius : ℚ
deriving DecidableEq

/-- The value `tracePoint` stores in a point's `traceOptions` field. -/
structure TraceAnnotation where
  point : TraceOpts
deriving DecidableEq

/-- The `options` argument accepted by `tracePoint`: absent, a bare number
(convenience for the radius), or an options record. -/
inductive TraceOptArg where
  | missing
  | num (r : ℚ)
  | obj (o : TraceOpts)
deriving DecidableEq

/-- A drawpoint as the draw.js helpers see it: coordinates, optional control
points and the optional trace annotation. -/
@[ext]
structure TracedDrawPt where
  x : ℚ
  y : ℚ
  cp1 : Option Pt := none
  cp2 : Option Pt := none
  traceOptions : Option TraceAnnotation := none
deriving DecidableEq

/-- The normalization `tracePoint` applies to its options argument: a missing
argument becomes radius 1, a bare number becomes a radius record. -/
def normalizeTraceArg : TraceOptArg → TraceOpts
  | .missing => ⟨1⟩
  | .num r => ⟨r⟩
  | .obj o => o

/-- From draw.js: `tracePoint` assigns the normalized annotation onto its
argument (`pt.traceOptions = ...`) and then returns that very object.  The
first component is the value of the caller's argument object after the call,
the second the returned value; in the source both are the same object, so the
components are equal by construction. -/
def tracePoint (pt : TracedDrawPt) (options : TraceOptArg) :
    TracedDrawPt × TracedDrawPt :=
  let newPt := { pt with traceOptions := some ⟨normalizeTraceArg options⟩ }
  (newPt, newPt)

/-- An argument to `drawSpecificCurl`: a point which may carry the optional
`t` and `deflection` fields the routine destructures (defaulting both to
0.5). -/
structure CurlPt where
  x : ℚ
  y : ℚ
  t : Option ℚ := none
  deflection : Option ℚ := none
deriving DecidableEq

/-- The plain real-coordinate point of a curl argument. -/
def CurlPt.toPtR (p : CurlPt) : PtR := ⟨(p.x : ℝ), (p.y : ℝ)⟩

/-- An output point of `drawSpecificCurl`: a fresh extracted copy onto which
the routine assigns a control point. -/
structure CurlOutPt where
  x : ℝ
  y : ℝ
  cp1 : Option PtR := none

/-- From draw.js: `drawSpecificCurl` extracts fresh plain copies of its three
arguments, assigns `cp1` onto the two derived copies (for the third point the
source passes `p1, p2` — the extracted left and center points — to
`simpleQuadratic` again), and returns the three fresh points.  The first
component is the value of the three caller argument objects after the call
(the routine only reads them), the second the returned triple. -/
noncomputable def drawSpecificCurl (left center right : CurlPt) :
    (CurlPt × CurlPt × CurlPt) × (CurlOutPt × CurlOutPt × CurlOutPt) :=
  let p1 : PtR := left.toPtR
  let p2 : PtR := center.toPtR
  let p3 : PtR := right.toPtR
  let cpCenter := simpleQuadratic p1 p2 ((left.t.getD (1/2) : ℚ) : ℝ)
      ((left.deflection.getD (1/2) : ℚ) : ℝ)
  let cpRight := simpleQuadratic p1 p2 ((right.t.getD (1/2) : ℚ) : ℝ)
      ((right.deflection.getD (1/2) : ℚ) : ℝ)
  ((left, center, right),
   (⟨p1.x, p1.y, none⟩, ⟨p2.x, p2.y, some cpCenter⟩, ⟨p3.x, p3.y, some cpRight⟩))

/-- C1 counterexample: `tracePoint` does mutate caller-supplied data — after
the call the caller's point object carries a trace annotation it did not have
before, so not every field of every argument is left unchanged.  Concretely at
the point (1,2) with no annotation and an absent options argument. -/
theorem tracePoint_mutates_argument :
    (tracePoint ⟨1, 2, none, none, none⟩ .missing).1 ≠
      ⟨1, 2, none, none, none⟩ := by
  intro hc
  have h := congrArg TracedDrawPt.traceOptions hc
  simp [tracePoint] at h

/-- C1 (amended): `drawSpecificCurl` leaves every field of its three
caller-supplied arguments unchanged (its `cp1` assignments land on the fresh
extracted copies it returns), and `tracePoint` preserves its argument's
coordinates and control points — but `tracePoint` is not pure with respect to
its argument: it assigns the normalized trace annotation onto the argument
object itself and returns that same mutated object rather than a new point
value. -/
theorem routines_frame_effects (pt : TracedDrawPt) (options : TraceOptArg)
    (left center right : CurlPt) :
    (drawSpecificCurl left center right).1 = (left, center, right) ∧
    (tracePoint pt options).2 = (tracePoint pt options).1 ∧
    (tracePoint pt options).1.x = pt.x ∧
    (tracePoint pt options).1.y = pt.y ∧
    (tracePoint pt options).1.cp1 = pt.cp1 ∧
    (tracePoint pt options).1.cp2 = pt.cp2 ∧
    (tracePoint pt options).1.traceOptions = some ⟨normalizeTraceArg options⟩ :=
  ⟨rfl, rfl, rfl, rfl, rfl, rfl, rfl⟩

/-- Modelled from the spec: the vector utility `scale` (the point module is
not among the sources): the point scaled away from `origin` by factor `s`,
i.e. `origin + s·(p − origin)`. -/
def scale (origin p : Pt) (s : ℚ) : Pt :=
  ⟨origin.x + s * (p.x - origin.x), origin.y + s * (p.y - origin.y)⟩

/-- From draw.js: `getSmoothControlPoint` throws when the endpoint has no
second control point and otherwise returns `scale(pt, pt.cp2, −scaleValue)`;
the throw is embedded as `Except.error`. -/
def getSmoothControlPoint (pt : DrawPt) (scaleValue : ℚ) : Except String Pt :=
  match pt.cp2 with
  | none => .error "point has no second control point"
  | some c => .ok (scale (extractPoint pt) c (-scaleValue))

/-- C2: `getSmoothControlPoint` signals an invalid-precondition error exactly
when the endpoint lacks a second control point, aborting the call; when `cp2`
is present it returns, without raising, the continuing control point
`scale(pt, pt.cp2, −scaleValue)` — which is `cp2` reflected through the point
and scaled by `scaleValue`. -/
theorem getSmoothControlPoint_spec (pt : DrawPt) (k : ℚ) :
    ((∃ msg, getSmoothControlPoint pt k = .error msg) ↔ pt.cp2 = none) ∧
    (∀ c, pt.cp2 = some c →
      getSmoothControlPoint pt k = .ok (scale (extractPoint pt) c (-k)) ∧
      scale (extractPoint pt) c (-k) =
        ⟨pt.x - k * (c.x - pt.x), pt.y - k * (c.y - pt.y)⟩) := by
  rcases pt with ⟨x, y, c1, c2⟩
  rcases c2 with _ | c2
  · refine ⟨⟨fun _ => rfl, fun _ => ⟨_, rfl⟩⟩, ?_⟩
    rintro c ⟨⟩
  · refine ⟨⟨?_, by simp⟩, ?_⟩
    · rintro ⟨msg, hmsg⟩
      exact absurd hmsg (by simp [getSmoothControlPoint])
    · rintro c ⟨⟩
      refine ⟨rfl, ?_⟩
      simp only [scale, extractPoint]
      ext <;> ring

/-- C2 witness: at the endpoint (0,0) with second control point (1,1) and
scale value 2, the call does not raise and returns the reflected, scaled
control point (−2,−2). -/
theorem getSmoothControlPoint_spec_witness :
    (⟨0, 0, none, some ⟨1, 1⟩⟩ : DrawPt).cp2 = some ⟨1, 1⟩ ∧
      getSmoothControlPoint ⟨0, 0, none, some ⟨1, 1⟩⟩ 2 =
        .ok (scale (extractPoint ⟨0, 0, none, some ⟨1, 1⟩⟩) ⟨1, 1⟩ (-2)) :=
  ⟨rfl, ((getSmoothControlPoint_spec ⟨0, 0, none, some ⟨1, 1⟩⟩ 2).2 ⟨1, 1⟩ rfl).1⟩

/-- Modelled from the spec: the `clone` utility (the point module is not among
the sources) returns a fresh copy of a point value; an absent control point
stays absent. -/
def clonePt : Option Pt → Option Pt
  | none => none
  | some p => some ⟨p.x, p.y⟩

/-- From draw.js: `reverseDrawPoint` returns its `start` argument when either
argument is absent, and otherwise builds a brand-new record carrying start's
coordinates and clones of end's control points with the two swapped. -/
def reverseDrawPoint (start e : Option DrawPt) : Option DrawPt :=
  match start, e with
  | none, _ => none
  | some s, none => some s
  | some s, some en =>
      some { x := s.x, y := s.y, cp1 := clonePt en.cp2, cp2 := clonePt en.cp1 }

/-- C10: `reverseDrawPoint` returns the start argument unchanged when either
argument is absent; otherwise it returns a new endpoint whose coordinates are
start's and whose `cp1` / `cp2` are copies of end's `cp2` / `cp1` (the two
control points swapped), leaving the end argument's record untouched. -/
theorem reverseDrawPoint_spec (s en : DrawPt) :
    (∀ e, reverseDrawPoint none e = none) ∧
    reverseDrawPoint (some s) none = some s ∧
    reverseDrawPoint (some s) (some en) = some ⟨s.x, s.y, en.cp2, en.cp1⟩ := by
  refine ⟨fun e => rfl, rfl, ?_⟩
  rcases en with ⟨ex, ey, c1, c2⟩
  rcases c1 with _ | c1 <;> rcases c2 with _ | c2 <;> rfl

/-- A coordinate dimension. -/
inductive Dim where
  | x
  | y
deriving DecidableEq

/-- The selected coordinate of a plain point. -/
def Pt.coord (p : Pt) : Dim → ℚ
  | .x => p.x
  | .y => p.y

/-- The selected coordinate of a real point. -/
def PtR.coord (p : PtR) : Dim → ℝ
  | .x => p.x
  | .y => p.y

/-- Real-parameter Bernstein evaluation of a curve with rational defining
points, used to express interpolation results at irrational roots. -/
def getPointOnCurveR (t : ℝ) (p1 : Pt) (p2 : DrawPt) : PtR :=
  match p2.cp1, p2.cp2 with
  | some c1, some c2 =>
      ⟨(1 - t) ^ 3 * (p1.x : ℝ) + 3 * (1 - t) ^ 2 * t * (c1.x : ℝ)
          + 3 * (1 - t) * t ^ 2 * (c2.x : ℝ) + t ^ 3 * (p2.x : ℝ),
       (1 - t) ^ 3 * (p1.y : ℝ) + 3 * (1 - t) ^ 2 * t * (c1.y : ℝ)
          + 3 * (1 - t) * t ^ 2 * (c2.y : ℝ) + t ^ 3 * (p2.y : ℝ)⟩
  | some c1, none =>
      ⟨(1 - t) ^ 2 * (p1.x : ℝ) + 2 * (1 - t) * t * (c1.x : ℝ)
          + t ^ 2 * (p2.x : ℝ),
       (1 - t) ^ 2 * (p1.y : ℝ) + 2 * (1 - t) * t * (c1.y : ℝ)
          + t ^ 2 * (p2.y : ℝ)⟩
  | none, _ =>
      ⟨(1 - t) * (p1.x : ℝ) + t * (p2.x : ℝ),
       (1 - t) * (p1.y : ℝ) + t * (p2.y : ℝ)⟩

/-- Modelled from the spec: the linear-formula real root set (the curve module
with its equation solvers is not among the sources); a vanishing leading
coefficient produces no finite parameter, hence no roots. -/
def solveLinearSet (a b : ℚ) : Set ℝ :=
  if a = 0 then ∅ else {t : ℝ | (a : ℝ) * t + (b : ℝ) = 0}

/-- Modelled from the spec: the quadratic-formula real root set (complex roots
discarded, so a negative discriminant contributes nothing), degrading to the
linear formula when the leading coefficient vanishes. -/
def solveQuadraticSet (a b c : ℚ) : Set ℝ :=
  if a = 0 then solveLinearSet b c
  else {t : ℝ | (a : ℝ) * t ^ 2 + (b : ℝ) * t + (c : ℝ) = 0}

/-- Modelled from the spec: the cubic-formula real root set (Cardano-style;
complex and NaN roots discarded), degrading to the quadratic formula when the
leading coefficient vanishes. -/
def solveCubicSet (a b c d : ℚ) : Set ℝ :=
  if a = 0 then solveQuadraticSet b c d
  else {t : ℝ | (a : ℝ) * t ^ 3 + (b : ℝ) * t ^ 2 + (c : ℝ) * t + (d : ℝ) = 0}

theorem solveLinearSet_sound {a b : ℚ} {t : ℝ}
    (h : t ∈ solveLinearSet a b) : (a : ℝ) * t + (b : ℝ) = 0 := by
  by_cases ha : a = 0
  · simp [solveLinearSet, ha] at h
  · simpa [solveLinearSet, ha] using h

theorem solveQuadraticSet_sound {a b c : ℚ} {t : ℝ}
    (h : t ∈ solveQuadraticSet a b c) :
    (a : ℝ) * t ^ 2 + (b : ℝ) * t + (c : ℝ) = 0 := by
  by_cases ha : a = 0
  · rw [solveQuadraticSet, if_pos ha] at h
    rw [ha]
    have := solveLinearSet_sound h
    push_cast
    linarith
  · rw [solveQuadraticSet, if_neg ha] at h
    exact h

theorem solveCubicSet_sound {a b c d : ℚ} {t : ℝ}
    (h : t ∈ solveCubicSet a b c d) :
    (a : ℝ) * t ^ 3 + (b : ℝ) * t ^ 2 + (c : ℝ) * t + (d : ℝ) = 0 := by
  by_cases ha : a = 0
  · rw [solveCubicSet, if_pos ha] at h
    rw [ha]
    have := solveQuadraticSet_sound h
    push_cast
    linarith
  · rw [solveCubicSet, if_neg ha] at h
    exact h

/-- The real root set of the queried dimension's Bernstein polynomial minus
the target value, in standard form, dispatched on the curve degree. -/
def curveCoordRoots (p1 : Pt) (p2 : DrawPt) (dim : Dim) (v : ℚ) : Set ℝ :=
  let d0 := p1.coord dim
  let d3 := (extractPoint p2).coord dim
  match p2.cp1, p2.cp2 with
  | some c1, some c2 =>
      solveCubicSet (-d0 + 3 * c1.coord dim - 3 * c2.coord dim + d3)
        (3 * d0 - 6 * c1.coord dim + 3 * c2.coord dim)
        (-3 * d0 + 3 * c1.coord dim) (d0 - v)
  | some c, none =>
      solveQuadraticSet (d0 - 2 * c.coord dim + d3)
        (2 * (c.coord dim - d0)) (d0 - v)
  | none, _ =>
      solveLinearSet (d3 - d0) (d0 - v)

/-- Every root produced by the closed-form solvers really is a parameter at
which the curve's queried coordinate equals the target value. -/
theorem curveCoordRoots_sound (p1 : Pt) (p2 : DrawPt) (dim : Dim) (v : ℚ)
    {t : ℝ} (h : t ∈ curveCoordRoots p1 p2 dim v) :
    (getPointOnCurveR t p1 p2).coord dim = (v : ℝ) := by
  rcases p2 with ⟨x, y, c1, c2⟩
  rcases c1 with _ | c1 <;> rcases c2 with _ | c2 <;>
    cases dim <;>
      (first
        | (have h0 := solveLinearSet_sound h
           simp only [getPointOnCurveR, PtR.coord, Pt.coord, extractPoint] at h0 ⊢
           push_cast at h0 ⊢
           linear_combination h0)
        | (have h0 := solveQuadraticSet_sound h
           simp only [getPointOnCurveR, PtR.coord, Pt.coord, extractPoint] at h0 ⊢
           push_cast at h0 ⊢
           linear_combination h0)
        | (have h0 := solveCubicSet_sound h
           simp only [getPointOnCurveR, PtR.coord, Pt.coord, extractPoint] at h0 ⊢
           push_cast at h0 ⊢
           linear_combination h0))

/-- An interpolation result entry: a parameter value and the full point at
it. -/
structure InterpPt where
  t : ℝ
  pt : PtR

/-- Modelled from the spec: `interpolateCurve` (the curve module is not among
the sources).  A query with zero or two free coordinates yields the empty
sequence (not an error); otherwise the fixed dimension's Bernstein polynomial
minus the target value is solved with the closed-form formula of the curve's
degree (degrading when the leading coefficient vanishes), real roots outside
[0,1] are discarded — as the test suite requires for query values beyond the
coordinate range of the curve — and each surviving root is returned tagged
with the evaluated point.  Embedded as the set of returned entries. -/
def interpolateCurve (p1 : Pt) (p2 : DrawPt) (qx qy : Option ℚ) : Set InterpPt :=
  match qx, qy with
  | some _, some _ => ∅
  | none, none => ∅
  | some v, none =>
      {ip | ip.t ∈ curveCoordRoots p1 p2 .x v ∧ 0 ≤ ip.t ∧ ip.t ≤ 1 ∧
        ip.pt = getPointOnCurveR ip.t p1 p2}
  | none, some v =>
      {ip | ip.t ∈ curveCoordRoots p1 p2 .y v ∧ 0 ≤ ip.t ∧ ip.t ≤ 1 ∧
        ip.pt = getPointOnCurveR ip.t p1 p2}

/-- The query with the given dimension fixed to `v` and the other free. -/
def mkQuery : Dim → ℚ → Option ℚ × Option ℚ
  | .x, v => (some v, none)
  | .y, v => (none, some v)

/-- When the queried dimension is constant along the whole curve, every
standard-form coefficient vanishes and the degraded formulas produce no
roots. -/
theorem curveCoordRoots_const (p1 : Pt) (p2 : DrawPt) (dim : Dim) (v : ℚ)
    (he : (extractPoint p2).coord dim = p1.coord dim)
    (h1 : ∀ c, p2.cp1 = some c → c.coord dim = p1.coord dim)
    (h2 : ∀ c, p2.cp2 = some c → c.coord dim = p1.coord dim) :
    curveCoordRoots p1 p2 dim v = ∅ := by
  rcases p2 with ⟨x, y, c1, c2⟩
  rcases c1 with _ | c1 <;> rcases c2 with _ | c2
  · simp only [curveCoordRoots]
    rw [he]
    simp [solveLinearSet]
  · simp only [curveCoordRoots]
    rw [he]
    simp [solveLinearSet]
  · simp only [curveCoordRoots]
    rw [he, h1 c1 rfl]
    have ha : p1.coord dim - 2 * p1.coord dim + p1.coord dim = 0 := by ring
    have hb : 2 * (p1.coord dim - p1.coord dim) = 0 := by ring
    rw [ha, hb]
    simp [solveQuadraticSet, solveLinearSet]
  · simp only [curveCoordRoots]
    rw [he, h1 c1 rfl, h2 c2 rfl]
    have ha : -p1.coord dim + 3 * p1.coord dim - 3 * p1.coord dim
        + p1.coord dim = 0 := by ring
    have hb : 3 * p1.coord dim - 6 * p1.coord dim + 3 * p1.coord dim = 0 := by
      ring
    have hc : -(3 * p1.coord dim) + 3 * p1.coord dim = 0 := by ring
    rw [ha, hb]
    simp only [solveCubicSet, solveQuadraticSet, solveLinearSet, if_pos rfl]
    have hc' : -3 * p1.coord dim + 3 * p1.coord dim = 0 := by ring
    rw [hc']
    simp

/-- C8: `interpolateCurve` returns the empty sequence — and cannot raise, being
a total function — (i) whenever both query coordinates are set, (ii) whenever
the queried coordinate is constant along the entire curve (e.g. asking for x
on a vertical line), and (iii) whenever the curve never attains the queried
value (the query lies outside the coordinate range the curve spans). -/
theorem interpolateCurve_empty_cases (p1 : Pt) (p2 : DrawPt) (dim : Dim)
    (v vx vy : ℚ) :
    interpolateCurve p1 p2 (some vx) (some vy) = ∅ ∧
    ((extractPoint p2).coord dim = p1.coord dim →
      (∀ c, p2.cp1 = some c → c.coord dim = p1.coord dim) →
      (∀ c, p2.cp2 = some c → c.coord dim = p1.coord dim) →
      interpolateCurve p1 p2 (mkQuery dim v).1 (mkQuery dim v).2 = ∅) ∧
    ((∀ t : ℝ, 0 ≤ t → t ≤ 1 →
        (getPointOnCurveR t p1 p2).coord dim ≠ (v : ℝ)) →
      interpolateCurve p1 p2 (mkQuery dim v).1 (mkQuery dim v).2 = ∅) := by
  refine ⟨rfl, ?_, ?_⟩
  · intro he h1 h2
    have hroots := curveCoordRoots_const p1 p2 dim v he h1 h2
    cases dim <;>
      (ext ip
       simp only [interpolateCurve, mkQuery, Set.mem_setOf_eq,
         Set.mem_empty_iff_false, iff_false, not_and]
       intro hroot
       rw [hroots] at hroot
       exact absurd hroot (Set.not_mem_empty ip.t))
  · intro hmiss
    cases dim <;>
      (ext ip
       simp only [interpolateCurve, mkQuery, Set.mem_setOf_eq,
         Set.mem_empty_iff_false, iff_false, not_and]
       intro hroot h0 h1 _
       exact hmiss ip.t h0 h1 (curveCoordRoots_sound p1 p2 _ v hroot))

/-- C8 witness: on the vertical line (0,0) → (0,50), asking for the x
coordinate 0 (the constant coordinate), the interpolation result is empty. -/
theorem interpolateCurve_empty_witness :
    (extractPoint ⟨0, 50, none, none⟩).coord .x = (⟨0, 0⟩ : Pt).coord .x ∧
      interpolateCurve ⟨0, 0⟩ ⟨0, 50, none, none⟩ (some 0) none = ∅ :=
  ⟨rfl,
    (interpolateCurve_empty_cases ⟨0, 0⟩ ⟨0, 50, none, none⟩ .x 0 0 0).2.1 rfl
      (fun _ hc => nomatch hc) (fun _ hc => nomatch hc)⟩

end Drawpoint
